import Mathlib

/-!
Verification of the CPU-scheduling simulator (`main.go`) against its
natural-language specification.

The file shallowly embeds the four scheduler functions of the source —
`FCFSSchedule`, `SJFSchedule`, `SJFPrioritySchedule`, `RRSchedule` — as
executable Lean functions and proves/refutes the frozen claims about them.

Modelling conventions, stated once here:

* Go `int64` values are modelled as `Int`.  All arithmetic in the schedulers
  is additive bookkeeping on small quantities; two's-complement wrap-around
  is not modelled (every identity proved below also holds verbatim modulo
  2^64, since both sides are computed by the same wrapped operations).
* The Go code stores each output row as a `[]string` of `fmt.Sprint`-ed
  integers.  We model a row as a record of the seven integers printed
  (`Row`); `fmt.Sprint : int64 → string` is injective, so nothing is lost.
* `totalWait`, `totalTurnaround`, `lastCompletion` are `float64` accumulators
  in Go holding exact integer values throughout; they are modelled as `Int`.
  The final averages divide them by a count; on an empty input Go performs
  `0.0/0.0 = NaN`.  We keep numerator and divisor separate (the divisor is
  observable in the embedding) rather than modelling IEEE NaN.
* `sort.Slice` is modelled by insertion sort with the source's `less`
  closure (`goSort`).  For slices below Go's pdqsort small-array threshold
  this is exactly what `sort.Slice` executes; every general theorem below
  depends only on the result being a permutation of the input, which holds
  for any sorting algorithm.
* `RRSchedule` removes elements of the `processes` slice while `range`-ing
  over it.  Per the Go specification the range clause iterates over the
  slice header captured at loop entry while `append(processes[:i],
  processes[i+1:]...)` rewrites the shared backing array in place, and the
  slice expression `processes[i+1:]` panics when `i+1 > len(processes)`.
  The embedding therefore models the backing array explicitly
  (`RRState.backing` of constant length plus the live length `RRState.len`)
  and models the panic as an aborted outcome (`RROutcome.crashed`).
* The Round-Robin outer loop is embedded with explicit fuel
  (`RROutcome.fuelOut` when it runs out); a theorem below shows that some
  finite fuel always suffices.
-/

/-- Source `Process` struct: `ProcessID`, `ArrivalTime`, `BurstDuration`,
`Priority`, all `int64`. -/
structure Process where
  ProcessID     : Int
  ArrivalTime   : Int
  BurstDuration : Int
  Priority      : Int
  deriving Repr, DecidableEq, Inhabited

/-- Source `TimeSlice` struct (one Gantt-chart execution interval). -/
structure TimeSlice where
  PID   : Int
  Start : Int
  Stop  : Int
  deriving Repr, DecidableEq, Inhabited

/-- One output row of the schedule table: the seven integers the source
prints (`ID, Priority, Burst, Arrival, Wait, Turnaround, Exit`). -/
structure Row where
  id         : Int
  priority   : Int
  burst      : Int
  arrival    : Int
  wait       : Int
  turnaround : Int
  completion : Int
  deriving Repr, DecidableEq, Inhabited

/-- Insert `x` into `l`: `x` lands before the first element `y` with
`lt x y`.  On a list sorted by a strict weak order this is exactly where
Go's insertion sort sinks `x`. -/
def goInsert (lt : Process → Process → Bool) (x : Process) : List Process → List Process
  | [] => [x]
  | y :: ys => if lt x y then x :: y :: ys else y :: goInsert lt x ys

/-- Model of `sort.Slice` with comparison closure `lt`: insertion sort
(what `sort.Slice` itself runs on short slices; all general theorems use
only that the output is a permutation of the input). -/
def goSort (lt : Process → Process → Bool) (l : List Process) : List Process :=
  l.foldl (fun acc x => goInsert lt x acc) []

/-- The `less` closure of `SJFSchedule`'s sort (ascending burst). -/
def ltBurst (a b : Process) : Bool := a.BurstDuration < b.BurstDuration

/-- The `less` closure of `SJFPrioritySchedule`'s sort
(ascending burst, ties by ascending priority). -/
def ltBurstPriority (a b : Process) : Bool :=
  if a.BurstDuration == b.BurstDuration then a.Priority < b.Priority
  else a.BurstDuration < b.BurstDuration

/-- The `less` closure of `RRSchedule`'s sort (ascending arrival time). -/
def ltArrival (a b : Process) : Bool := a.ArrivalTime < b.ArrivalTime

/-! ### FCFSSchedule (source lines 82–132) -/

/-- Loop state of `FCFSSchedule`: the local variables that survive an
iteration, plus the accumulated rows and Gantt slices. -/
structure FCFSState where
  serviceTime     : Int
  waitingTime     : Int
  totalWait       : Int
  totalTurnaround : Int
  lastCompletion  : Int
  rows            : List Row
  gantt           : List TimeSlice
  deriving Repr, DecidableEq, Inhabited

/-- One iteration of `FCFSSchedule`'s `for i := range processes` loop.
Note the source updates `waitingTime` only when `ArrivalTime > 0`
(lines 93–95); otherwise the previous iteration's value is reused. -/
def FCFSbody (s : FCFSState) (p : Process) : FCFSState :=
  let waitingTime := if p.ArrivalTime > 0 then s.serviceTime - p.ArrivalTime else s.waitingTime
  let start := waitingTime + p.ArrivalTime
  let turnaround := p.BurstDuration + waitingTime
  let completion := p.BurstDuration + p.ArrivalTime + waitingTime
  let serviceTime := s.serviceTime + p.BurstDuration
  { serviceTime := serviceTime
    waitingTime := waitingTime
    totalWait := s.totalWait + waitingTime
    totalTurnaround := s.totalTurnaround + turnaround
    lastCompletion := completion
    rows := s.rows ++
      [⟨p.ProcessID, p.Priority, p.BurstDuration, p.ArrivalTime, waitingTime, turnaround, completion⟩]
    gantt := s.gantt ++ [⟨p.ProcessID, start, serviceTime⟩] }

/-- `FCFSSchedule` (whole loop).  The averages printed afterwards are
`totalWait / count`, `totalTurnaround / count` and `count / lastCompletion`
in `float64`, with `count = len(processes)`; the division is unconditional
(no empty-input guard). -/
def FCFSSchedule (ps : List Process) : FCFSState :=
  ps.foldl FCFSbody ⟨0, 0, 0, 0, 0, [], []⟩

/-- The divisor of `FCFSSchedule`'s two averages: `count := float64(len(processes))`
(line 124).  The source divides by it unconditionally. -/
def FCFSaveDivisor (ps : List Process) : Int := ps.length

/-- `FCFSSchedule` never writes to the caller's slice: the loop only reads
`processes[i]` (no sort, no element assignment). -/
def FCFSfinalProcesses (ps : List Process) : List Process := ps

/-! ### SJFSchedule (source lines 134–196) -/

/-- Loop state of `SJFSchedule`.  `rows` has one `Option Row` slot per input
process (a `none` slot models a never-written `nil` entry of the Go
`schedule` array). -/
structure SJFState where
  currentTime     : Int
  totalWait       : Int
  totalTurnaround : Int
  lastCompletion  : Int
  rows            : List (Option Row)
  gantt           : List TimeSlice
  deriving Repr, DecidableEq, Inhabited

/-- One iteration of `SJFSchedule`'s loop body.  The result row is stored at
array index `ProcessID - 1` (line 170); a Go index out of range
`[0, len(schedule))` panics, modelled by `none`. -/
def SJFbody (s : SJFState) (p : Process) : Option SJFState :=
  let waitingTime := if p.ArrivalTime > s.currentTime then p.ArrivalTime - s.currentTime else 0
  let start := s.currentTime + waitingTime
  let turnaround := p.BurstDuration + waitingTime
  let completion := p.BurstDuration + start
  let idx := p.ProcessID - 1
  if 0 ≤ idx ∧ idx.toNat < s.rows.length then
    some { currentTime := completion
           totalWait := s.totalWait + waitingTime
           totalTurnaround := s.totalTurnaround + turnaround
           lastCompletion := completion
           rows := s.rows.set idx.toNat
             (some ⟨p.ProcessID, p.Priority, p.BurstDuration, p.ArrivalTime, waitingTime, turnaround, completion⟩)
           gantt := s.gantt ++ [⟨p.ProcessID, start, completion⟩] }
  else none

/-- `SJFSchedule`'s `for len(remaining) > 0` loop: pop the head of the
burst-sorted working copy until it is empty. -/
def SJFloop : List Process → SJFState → Option SJFState
  | [], s => some s
  | p :: rest, s =>
    match SJFbody s p with
    | none => none
    | some s' => SJFloop rest s'

/-- `SJFSchedule`: copies the input into `remaining`, sorts the copy by
ascending burst, then runs the loop.  `none` models the index-out-of-range
panic at `schedule[current.ProcessID-1]`. -/
def SJFSchedule (ps : List Process) : Option SJFState :=
  SJFloop (goSort ltBurst ps) ⟨0, 0, 0, 0, List.replicate ps.length none, []⟩

/-- `SJFSchedule` sorts only the working copy `remaining` (lines 143–149);
the caller's slice is read once by `copy` and never written. -/
def SJFfinalProcesses (ps : List Process) : List Process := ps

/-! ### SJFPrioritySchedule (source lines 199–259) -/

/-- Loop state of `SJFPrioritySchedule`. -/
structure PrioState where
  serviceTime     : Int
  totalWait       : Int
  totalTurnaround : Int
  lastCompletion  : Int
  rows            : List Row
  gantt           : List TimeSlice
  deriving Repr, DecidableEq, Inhabited

/-- One iteration of `SJFPrioritySchedule`'s loop (lines 217–249). -/
def SJFPrioBody (s : PrioState) (p : Process) : PrioState :=
  let waitingTime := if p.ArrivalTime > s.serviceTime then 0 else s.serviceTime - p.ArrivalTime
  let serviceNow := if p.ArrivalTime > s.serviceTime then p.ArrivalTime else s.serviceTime
  let start := serviceNow
  let turnaround := p.BurstDuration + waitingTime
  let completion := start + p.BurstDuration
  { serviceTime := serviceNow + p.BurstDuration
    totalWait := s.totalWait + waitingTime
    totalTurnaround := s.totalTurnaround + turnaround
    lastCompletion := completion
    rows := s.rows ++
      [⟨p.ProcessID, p.Priority, p.BurstDuration, p.ArrivalTime, waitingTime, turnaround, completion⟩]
    gantt := s.gantt ++ [⟨p.ProcessID, start, serviceNow + p.BurstDuration⟩] }

/-- `SJFPrioritySchedule`: sorts the caller's slice in place by
(burst, priority), then folds the loop body over it. -/
def SJFPrioritySchedule (ps : List Process) : PrioState :=
  (goSort ltBurstPriority ps).foldl SJFPrioBody ⟨0, 0, 0, 0, [], []⟩

/-- The caller's slice after `SJFPrioritySchedule` returns: the source's
`sort.Slice(processes, ...)` (lines 210–215) reorders the caller's backing
array in place, so the caller is left with the sorted slice. -/
def SJFPriorityFinalProcesses (ps : List Process) : List Process :=
  goSort ltBurstPriority ps

/-! ### RRSchedule (source lines 262–341) -/

/-- Source constant `quantum` (line 262). -/
def quantum : Int := 4

/-- State of `RRSchedule`'s outer loop.  `backing` is the caller's backing
array (its length never changes); the live `processes` slice is its first
`len` elements.  `waitMap` models the `waitingTime` map, newest entry
first. -/
structure RRState where
  backing         : List Process
  len             : Nat
  queue           : List Process
  t               : Int
  waitMap         : List (Int × Int)
  totalWait       : Int
  totalTurnaround : Int
  lastCompletion  : Int
  rows            : List Row
  gantt           : List TimeSlice
  deriving Repr, DecidableEq, Inhabited

/-- Read of the Go map `waitingTime[pid]` (missing key reads as 0). -/
def lookupWait (m : List (Int × Int)) (pid : Int) : Int :=
  match m with
  | [] => 0
  | (k, v) :: rest => if k == pid then v else lookupWait rest pid

/-- Effect of `processes = append(processes[:i], processes[i+1:]...)` on the
backing array when the live slice has length `len`: positions `i .. len-2`
receive the old positions `i+1 .. len-1`; everything else is untouched.
The array length is preserved (stale copies remain past the new length). -/
def removeShift (backing : List Process) (len i : Nat) : List Process :=
  backing.take i ++ (backing.drop (i + 1)).take (len - 1 - i) ++ backing.drop (len - 1)

/-- The admission `for i, p := range processes` loop of `RRSchedule`
(lines 281–287), embedded with Go's exact semantics: the range clause
iterates `i` over the length captured at entry (`k` counts the iterations
still to go), `p` is read from the *current* backing array, and the
eligible branch appends `p` to the queue and then rewrites the backing
array — which panics (`none`) when `i+1` exceeds the current live length,
because the slice expression `processes[i+1:]` is out of range.  The `i--`
in the source has no effect on a range loop and is not modelled. -/
def admissionLoop (t : Int) :
    Nat → Nat → List Process → Nat → List Process →
    Option (List Process × Nat × List Process)
  | 0, _, backing, len, adm => some (backing, len, adm)
  | k + 1, i, backing, len, adm =>
    let p := backing.getD i default
    if p.ArrivalTime ≤ t then
      if len < i + 1 then none
      else admissionLoop t k (i + 1) (removeShift backing len i) (len - 1) (adm ++ [p])
    else admissionLoop t k (i + 1) backing len adm

/-- One whole admission pass: the range loop starting at `i = 0` with the
iteration count captured as the live length at entry.  On success, returns
the new backing array, the new live length, and the processes appended to
the ready queue, in admission order. -/
def admissionPass (t : Int) (backing : List Process) (len : Nat) :
    Option (List Process × Nat × List Process) :=
  admissionLoop t len 0 backing len []

/-- The dispatch part of `RRSchedule`'s loop body (lines 294–331): pop
`cur` from the ready queue (whose tail is `rest`), run it for
`min(quantum, burst)`, record its wait in the map (overwriting any previous
entry for that id) and add the same amount to `totalWait`; requeue it with
re-seeded arrival time if burst remains, otherwise emit its result row; in
both cases append the execution interval to the Gantt chart. -/
def rrDispatch (s : RRState) (cur : Process) (rest : List Process) : RRState :=
  let execTime := if cur.BurstDuration < quantum then cur.BurstDuration else quantum
  let wVal := s.t - cur.ArrivalTime
  let waitMap := (cur.ProcessID, wVal) :: s.waitMap
  let totalWait := s.totalWait + lookupWait waitMap cur.ProcessID
  let t' := s.t + execTime
  let burst' := cur.BurstDuration - execTime
  let gantt := s.gantt ++ [⟨cur.ProcessID, t' - execTime, t'⟩]
  if burst' > 0 then
    { s with queue := rest ++ [{ cur with ArrivalTime := t', BurstDuration := burst' }]
             t := t'
             waitMap := waitMap
             totalWait := totalWait
             gantt := gantt }
  else
    let w := lookupWait waitMap cur.ProcessID
    let turnaround := t' - cur.ArrivalTime + w
    { s with queue := rest
             t := t'
             waitMap := waitMap
             totalWait := totalWait
             totalTurnaround := s.totalTurnaround + turnaround
             lastCompletion := t'
             rows := s.rows ++
               [⟨cur.ProcessID, cur.Priority, burst' + execTime, cur.ArrivalTime - w, w, turnaround, t'⟩]
             gantt := gantt }

/-- Result of running `RRSchedule`'s outer loop: normal exit, a Go panic in
the admission step (`crashed`), or fuel exhaustion of the embedding
(`fuelOut`; a later theorem shows enough fuel always exists). -/
inductive RROutcome where
  | finished (s : RRState)
  | crashed  (s : RRState)
  | fuelOut  (s : RRState)
  deriving Repr, DecidableEq, Inhabited

/-- Result of one iteration of `RRSchedule`'s outer loop: the loop guard
fails (`halt`), the admission pass panics (`panic`), or the loop continues
with a new state (`next`). -/
inductive StepRes where
  | halt
  | panic
  | next (s : RRState)
  deriving Repr, DecidableEq, Inhabited

/-- One iteration of the outer `for len(processes) > 0 || len(queue) > 0`
loop of `RRSchedule` (lines 280–332): check the loop guard, run the
admission pass, then either take the idle step (`currentTime++` when the
ready queue is empty, line 289–292) or dispatch the queue head. -/
def rrStep (s : RRState) : StepRes :=
  if s.len = 0 ∧ s.queue = [] then .halt
  else
    match admissionPass s.t s.backing s.len with
    | none => .panic
    | some (b', l', adm) =>
      let s1 : RRState := { s with backing := b', len := l' }
      match s1.queue ++ adm with
      | [] => .next { s1 with t := s1.t + 1 }
      | cur :: rest => .next (rrDispatch s1 cur rest)

/-- The whole outer loop, iterating `rrStep` with explicit fuel. -/
def rrLoop : Nat → RRState → RROutcome
  | 0, s => .fuelOut s
  | fuel + 1, s =>
    match rrStep s with
    | .halt => .finished s
    | .panic => .crashed s
    | .next s2 => rrLoop fuel s2

/-- `RRSchedule`: sort the caller's slice in place by arrival time, then run
the outer loop from time 0 with everything empty.  The averages printed
afterwards divide `totalWait` and `totalTurnaround` by `len(schedule)` (the
number of *completed* processes) and the throughput divides that count by
`lastCompletion`, all unconditionally. -/
def RRSchedule (fuel : Nat) (ps : List Process) : RROutcome :=
  let sorted := goSort ltArrival ps
  rrLoop fuel
    { backing := sorted, len := sorted.length, queue := [], t := 0, waitMap := []
      totalWait := 0, totalTurnaround := 0, lastCompletion := 0, rows := [], gantt := [] }

/-- Whether the outcome is the embedding's fuel exhaustion marker. -/
def RROutcome.isFuelOut : RROutcome → Bool
  | .fuelOut _ => true
  | _ => false

/-- Whether the outcome is a normal loop exit. -/
def RROutcome.isFinished : RROutcome → Bool
  | .finished _ => true
  | _ => false

/-- Whether the outcome is the modelled Go panic. -/
def RROutcome.isCrashed : RROutcome → Bool
  | .crashed _ => true
  | _ => false

/-- The state carried by any outcome. -/
def RROutcome.state : RROutcome → RRState
  | .finished s => s
  | .crashed s => s
  | .fuelOut s => s

/-- A normal exit leaves the loop exactly when the remaining list and the
ready queue are both empty (checked again in the theorems below). -/
def RROutcome.emptyOnFinish : RROutcome → Bool
  | .finished s => s.len == 0 && s.queue.isEmpty
  | _ => true

/-! ### Derived observations used by the claims -/

/-- Total duration of the Gantt intervals attributed to `pid`. -/
def sumDur (g : List TimeSlice) (pid : Int) : Int :=
  ((g.filter (fun ts => ts.PID == pid)).map (fun ts => ts.Stop - ts.Start)).sum

/-- Total burst duration of the processes in `l` carrying id `pid`. -/
def pidBurst (l : List Process) (pid : Int) : Int :=
  ((l.filter (fun p => p.ProcessID == pid)).map Process.BurstDuration).sum

/-- The processes `RRSchedule` still owes CPU time to: the live prefix of
the remaining-input array together with the ready queue. -/
def liveList (s : RRState) : List Process := s.backing.take s.len ++ s.queue

/-- The input process ids are pairwise distinct. -/
def idsNodup (ps : List Process) : Prop := (ps.map Process.ProcessID).Nodup

instance : DecidablePred idsNodup := fun ps =>
  inferInstanceAs (Decidable (ps.map Process.ProcessID).Nodup)

/-! ## Concrete evaluations settling the example-level claims -/

/-- C1: the specification's Round-Robin example
`[{id:1,burst:5,arrival:0},{id:2,burst:3,arrival:0}]` with quantum 4 is
claimed to produce the timeline P1 `[0,4)`, P2 `[4,7)`, P1 `[7,8)` with
turnarounds 7 (P2) and 8 (P1).  The code instead panics before the first
dispatch: during the first admission pass both processes are eligible at
time 0, so after `processes[0]` is removed the range loop reads the stale
duplicate at index 1, takes the eligible branch again, and the slice
expression `processes[2:]` on a length-1 slice is out of range.  No Gantt
interval and no result row is ever produced. -/
theorem C1_rr_example_crashes :
    (RRSchedule 20 [⟨1, 0, 5, 0⟩, ⟨2, 0, 3, 0⟩]).isCrashed = true ∧
    (RRSchedule 20 [⟨1, 0, 5, 0⟩, ⟨2, 0, 3, 0⟩]).state.gantt = [] ∧
    (RRSchedule 20 [⟨1, 0, 5, 0⟩, ⟨2, 0, 3, 0⟩]).state.rows = [] := by
  decide

/-- C2: claimed waiting time `max(0, serviceTime - arrivalTime)` for every
process.  On `[{id:1,burst:5,arrival:0},{id:2,burst:3,arrival:0}]` the
service time when process 2 is scheduled is 5 (process 1's burst), so the
claim demands `max(0, 5 - 0) = 5`; the code's guard `ArrivalTime > 0` is
false, so process 2 inherits the previous waiting value 0. -/
theorem C2_fcfs_wait_not_recomputed :
    (FCFSSchedule [⟨1, 0, 5, 0⟩, ⟨2, 0, 3, 0⟩]).rows =
      [⟨1, 0, 5, 0, 0, 5, 5⟩, ⟨2, 0, 3, 0, 0, 3, 3⟩] ∧
    ((FCFSSchedule [⟨1, 0, 5, 0⟩, ⟨2, 0, 3, 0⟩]).rows.getD 1 default).wait ≠
      max 0 ((FCFSSchedule [⟨1, 0, 5, 0⟩]).serviceTime - 0) := by
  decide

/-- C3 counterexample: on `[{id:1,arrival:5,burst:4,prio:2},
{id:2,arrival:0,burst:3,prio:1}]`, `SJFPrioritySchedule` leaves the
caller's slice sorted by (burst, priority) — order changed — and
`RRSchedule` (which completes normally on this staggered input) leaves the
caller's backing array holding `[P1, P1]` after its in-place sort and the
admission loop's shifting.  The claim that all four schedulers leave the
caller's slice unchanged is false. -/
theorem C3_counterexample :
    SJFPriorityFinalProcesses [⟨1, 5, 4, 2⟩, ⟨2, 0, 3, 1⟩] ≠ [⟨1, 5, 4, 2⟩, ⟨2, 0, 3, 1⟩] ∧
    (RRSchedule 20 [⟨1, 5, 4, 2⟩, ⟨2, 0, 3, 1⟩]).isFinished = true ∧
    (RRSchedule 20 [⟨1, 5, 4, 2⟩, ⟨2, 0, 3, 1⟩]).state.backing ≠ [⟨1, 5, 4, 2⟩, ⟨2, 0, 3, 1⟩] := by
  decide

/-- C3 (amended): `FCFSSchedule` only reads `processes[i]` and
`SJFSchedule` sorts a `copy`-initialized working slice, so both leave the
caller-supplied slice unchanged; `SJFPrioritySchedule` runs
`sort.Slice` directly on the caller's slice, leaving it sorted by
(burst, priority).  (`RRSchedule` likewise mutates the caller's array — see
the counterexample.) -/
theorem C3_caller_slice :
    ∀ ps : List Process,
      FCFSfinalProcesses ps = ps ∧ SJFfinalProcesses ps = ps ∧
      SJFPriorityFinalProcesses ps = goSort ltBurstPriority ps :=
  fun _ => ⟨rfl, rfl, rfl⟩

/-- C4 counterexample: `SJFSchedule` on
`[{id:1,burst:8,arrival:0},{id:2,burst:4,arrival:1}]` records for process 2
(scheduled first, waiting 1 for its arrival) the row
`wait = 1, turnaround = 5, completion = 5, arrival = 1`:
`completion - arrival = 4 ≠ 5 = turnaround`, refuting the claimed identity
`turnaroundTime = completionTime - arrivalTime` for SJF. -/
theorem C4_counterexample :
    ((SJFSchedule [⟨1, 0, 8, 0⟩, ⟨2, 1, 4, 0⟩]).getD default).rows.getD 1 none =
      some ⟨2, 0, 4, 1, 1, 5, 5⟩ ∧
    (⟨2, 0, 4, 1, 1, 5, 5⟩ : Row).completion - (⟨2, 0, 4, 1, 1, 5, 5⟩ : Row).arrival ≠
      (⟨2, 0, 4, 1, 1, 5, 5⟩ : Row).turnaround := by
  decide

/-- C6 counterexample: one admission pass at `currentTime = 4` over the
arrival-sorted remaining list `[P2(arrival 1), P3(arrival 2), P4(arrival 99)]`
admits only P2: removing it shifts P3 into index 0, the range loop resumes
at index 1 and reads the stale `P4` copies, so the eligible P3 is left in
the remaining list — refuting "no eligible process is left behind within
that pass". -/
theorem C6_counterexample :
    admissionPass 4 [⟨2, 1, 3, 0⟩, ⟨3, 2, 3, 0⟩, ⟨4, 99, 3, 0⟩] 3 =
      some ([⟨3, 2, 3, 0⟩, ⟨4, 99, 3, 0⟩, ⟨4, 99, 3, 0⟩], 2, [⟨2, 1, 3, 0⟩]) ∧
    (⟨3, 2, 3, 0⟩ : Process).ArrivalTime ≤ 4 ∧
    (⟨3, 2, 3, 0⟩ : Process) ∉ [(⟨2, 1, 3, 0⟩ : Process)] := by
  decide

/-- C7 counterexample: the ids `[1,1]` of
`[{id:1,burst:5},{id:1,burst:3}]` are not a dense permutation of `1..2`,
yet `SJFSchedule` does not fail: both writes land in slot 0 (the second
overwrites the first) and slot 1 is simply left unset. -/
theorem C7_counterexample :
    (SJFSchedule [⟨1, 0, 5, 0⟩, ⟨1, 0, 3, 0⟩]).isSome = true ∧
    ¬ idsNodup [⟨1, 0, 5, 0⟩, ⟨1, 0, 3, 0⟩] := by
  decide

/-- C8 counterexample: on the empty input no scheduler special-cases the
averages.  `FCFSSchedule` divides by `count = len(processes) = 0` and
`RRSchedule` divides by `len(schedule) = 0` completed processes and by
`lastCompletion = 0` — the divisions are unconditional in the source
(float64 `0/0 = NaN`), there is no guard. -/
theorem C8_counterexample :
    FCFSaveDivisor [] = 0 ∧
    (RRSchedule 1 []).state.rows.length = 0 ∧
    (RRSchedule 1 []).state.lastCompletion = 0 := by
  decide

/-- C8 (amended): an empty input yields empty rows and an empty timeline in
all four schedulers, and Round-Robin's average divisors are indeed the
completed-process count (`len(schedule)`) and the last completion time —
but the divisors are 0 and the divisions are performed anyway (producing
IEEE NaN), with no special case. -/
theorem C8_empty_input :
    (FCFSSchedule []).rows = [] ∧ (FCFSSchedule []).gantt = [] ∧
    FCFSaveDivisor [] = 0 ∧
    SJFSchedule [] = some ⟨0, 0, 0, 0, [], []⟩ ∧
    (SJFPrioritySchedule []).rows = [] ∧ (SJFPrioritySchedule []).gantt = [] ∧
    (RRSchedule 1 []).isFinished = true ∧
    (RRSchedule 1 []).state.rows = [] ∧
    (RRSchedule 1 []).state.gantt = [] ∧
    (RRSchedule 1 []).state.lastCompletion = 0 := by
  decide

/-- C9 counterexample: on `[{id:1,burst:1,arrival:0},{id:2,burst:1,arrival:0}]`
the Round-Robin loop does not reach the state where the remaining list and
the ready queue are both empty: the very first admission pass panics (both
processes eligible at time 0), at any fuel. -/
theorem C9_counterexample :
    (RRSchedule 5 [⟨1, 0, 1, 0⟩, ⟨2, 0, 1, 0⟩]).isCrashed = true ∧
    (RRSchedule 500 [⟨1, 0, 1, 0⟩, ⟨2, 0, 1, 0⟩]).isCrashed = true := by
  decide

/-! ## Sorting lemmas: `goSort` permutes its input -/

lemma goInsert_perm (lt : Process → Process → Bool) (x : Process) (l : List Process) :
    List.Perm (goInsert lt x l) (x :: l) := by
  induction l with
  | nil => simp [goInsert]
  | cons y ys ih =>
    simp only [goInsert]
    split
    · exact List.Perm.refl _
    · exact (ih.cons y).trans (List.Perm.swap x y ys)

lemma goSort_perm (lt : Process → Process → Bool) (l : List Process) :
    List.Perm (goSort lt l) l := by
  suffices h : ∀ acc : List Process, List.Perm (List.foldl (fun acc x => goInsert lt x acc) acc l) (acc ++ l) by
    simpa [goSort] using h []
  induction l with
  | nil => intro acc; simp
  | cons x xs ih =>
    intro acc
    simp only [List.foldl_cons]
    refine (ih (goInsert lt x acc)).trans ?_
    refine (((goInsert_perm lt x acc).append_right xs).trans ?_)
    exact List.perm_middle.symm

/-! ## C4: per-row arithmetic identities of the non-preemptive schedulers -/

/-- The two invariants claimed for every row of a non-preemptive run. -/
def rowIdentities (r : Row) : Prop :=
  r.turnaround = r.burst + r.wait ∧ r.completion = r.arrival + r.wait + r.burst

lemma FCFS_rows_identities :
    ∀ (l : List Process) (s : FCFSState),
      (∀ r ∈ s.rows, rowIdentities r) →
      ∀ r ∈ (l.foldl FCFSbody s).rows, rowIdentities r := by
  intro l
  induction l with
  | nil => intro s hs; simpa using hs
  | cons p rest ih =>
    intro s hs
    simp only [List.foldl_cons]
    apply ih
    intro r hr
    simp only [FCFSbody, List.mem_append, List.mem_singleton] at hr
    rcases hr with h | h
    · exact hs r h
    · subst h
      exact ⟨rfl, by simp [rowIdentities]; ring⟩

lemma Prio_rows_identities :
    ∀ (l : List Process) (s : PrioState),
      (∀ r ∈ s.rows, rowIdentities r) →
      ∀ r ∈ (l.foldl SJFPrioBody s).rows, rowIdentities r := by
  intro l
  induction l with
  | nil => intro s hs; simpa using hs
  | cons p rest ih =>
    intro s hs
    simp only [List.foldl_cons]
    apply ih
    intro r hr
    simp only [SJFPrioBody, List.mem_append, List.mem_singleton] at hr
    rcases hr with h | h
    · exact hs r h
    · subst h
      constructor
      · rfl
      · simp only [rowIdentities]
        split <;> ring

lemma SJF_rows_turnaround :
    ∀ (l : List Process) (s s' : SJFState),
      SJFloop l s = some s' →
      (∀ o ∈ s.rows, ∀ r, o = some r → r.turnaround = r.burst + r.wait) →
      ∀ o ∈ s'.rows, ∀ r, o = some r → r.turnaround = r.burst + r.wait := by
  intro l
  induction l with
  | nil =>
    intro s s' h hs
    simp only [SJFloop, Option.some.injEq] at h
    subst h; exact hs
  | cons p rest ih =>
    intro s s' h hs
    simp only [SJFloop] at h
    cases hb : SJFbody s p with
    | none => rw [hb] at h; cases h
    | some s1 =>
      rw [hb] at h
      refine ih s1 s' h ?_
      simp only [SJFbody] at hb
      split at hb
      · cases hb
        intro o ho r hr
        rcases List.mem_or_eq_of_mem_set ho with h1 | h1
        · exact hs o h1 r hr
        · subst h1; cases hr; rfl
      · cases hb

/-- C4 (amended): `turnaroundTime = burstDuration + waitingTime` holds for
every row of all three non-preemptive schedulers, and
`completionTime = arrivalTime + waitingTime + burstDuration` holds for
FCFS and Priority; for SJF the latter identity fails in general
(`completion = selectionTime + waitingTime + burst`, and the selection time
need not equal the arrival time — see the counterexample). -/
theorem C4_identities :
    ∀ ps : List Process,
      (∀ r ∈ (FCFSSchedule ps).rows, rowIdentities r) ∧
      (∀ r ∈ (SJFPrioritySchedule ps).rows, rowIdentities r) ∧
      (∀ s', SJFSchedule ps = some s' →
        ∀ o ∈ s'.rows, ∀ r, o = some r → r.turnaround = r.burst + r.wait) := by
  intro ps
  refine ⟨?_, ?_, ?_⟩
  · exact FCFS_rows_identities ps _ (by simp [FCFSSchedule])
  · exact Prio_rows_identities _ _ (by simp)
  · intro s' h
    exact SJF_rows_turnaround _ _ s' h (by simp)

/-- Witness for C4: the theorem applied to the concrete input
`[{id:1,burst:8,arrival:0},{id:2,burst:4,arrival:1}]`, reading off the
turnaround identity of process 2's row. -/
theorem C4_identities_witness :
    (⟨2, 0, 4, 1, 1, 5, 5⟩ : Row).turnaround =
      (⟨2, 0, 4, 1, 1, 5, 5⟩ : Row).burst + (⟨2, 0, 4, 1, 1, 5, 5⟩ : Row).wait :=
  (C4_identities [⟨1, 0, 8, 0⟩, ⟨2, 1, 4, 0⟩]).2.2
    ⟨13, 1, 13, 13, [some ⟨1, 0, 8, 0, 0, 8, 13⟩, some ⟨2, 0, 4, 1, 1, 5, 5⟩],
      [⟨2, 1, 5⟩, ⟨1, 5, 13⟩]⟩
    (by decide) (some ⟨2, 0, 4, 1, 1, 5, 5⟩) (by decide) _ rfl

/-! ## C7: SJF places rows at index `ProcessID - 1` -/

/-- The ids `1, 2, ..., n` in order — what "ids form a dense permutation of
`1..N`" is measured against. -/
def denseIds (n : Nat) : List Int := (List.range n).map (fun i : Nat => (i : Int) + 1)

lemma SJFbody_rows_length {s s1 : SJFState} {p : Process} (h : SJFbody s p = some s1) :
    s1.rows.length = s.rows.length := by
  simp only [SJFbody] at h
  split at h
  · cases h; simp
  · cases h

lemma SJFloop_bad (n : Nat) :
    ∀ (l : List Process) (s : SJFState), s.rows.length = n →
      (∃ p ∈ l, p.ProcessID < 1 ∨ (n : Int) < p.ProcessID) →
      SJFloop l s = none := by
  intro l
  induction l with
  | nil => intro s _ h; simp at h
  | cons p rest ih =>
    intro s hlen hbad
    by_cases hp : p.ProcessID < 1 ∨ (n : Int) < p.ProcessID
    · have hguard : ¬ (0 ≤ p.ProcessID - 1 ∧ (p.ProcessID - 1).toNat < s.rows.length) := by
        rw [hlen]; omega
    
      simp only [SJFloop, SJFbody, if_neg hguard]
    · have hrest : ∃ q ∈ rest, q.ProcessID < 1 ∨ (n : Int) < q.ProcessID := by
        rcases hbad with ⟨q, hq, hcond⟩
        rcases List.mem_cons.mp hq with rfl | hq'
        · exact absurd hcond hp
        · exact ⟨q, hq', hcond⟩
      simp only [SJFloop]
      cases hb : SJFbody s p with
      | none => rfl
      | some s1 => exact ih s1 (by rw [SJFbody_rows_length hb, hlen]) hrest

lemma SJFloop_perm (n : Nat) :
    ∀ (l : List Process) (s : SJFState),
      s.rows.length = n →
      (∀ p ∈ l, 1 ≤ p.ProcessID ∧ p.ProcessID ≤ (n : Int)) →
      (l.map Process.ProcessID).Nodup →
      (∀ i : Nat, i < n →
        (((i : Int) + 1) ∈ l.map Process.ProcessID ∧ s.rows[i]? = some none) ∨
        (((i : Int) + 1) ∉ l.map Process.ProcessID ∧
          ∃ r : Row, s.rows[i]? = some (some r) ∧ r.id = (i : Int) + 1)) →
      ∃ s', SJFloop l s = some s' ∧ s'.rows.length = n ∧
        ∀ i : Nat, i < n → ∃ r : Row, s'.rows[i]? = some (some r) ∧ r.id = (i : Int) + 1 := by
  intro l
  induction l with
  | nil =>
    intro s hlen _ _ hinv
    refine ⟨s, rfl, hlen, fun i hi => ?_⟩
    rcases hinv i hi with ⟨hmem, _⟩ | ⟨_, hr⟩
    · simp at hmem
    · exact hr
  | cons p rest ih =>
    intro s hlen hbound hnodup hinv
    obtain ⟨hp1, hp2⟩ := hbound p (List.mem_cons_self p rest)
    have hguard : 0 ≤ p.ProcessID - 1 ∧ (p.ProcessID - 1).toNat < s.rows.length := by
      rw [hlen]; omega
    have hjlt : (p.ProcessID - 1).toNat < s.rows.length := hguard.2
    have hcast : ((p.ProcessID - 1).toNat : Int) = p.ProcessID - 1 := Int.toNat_of_nonneg (by omega)
    have hnotin : p.ProcessID ∉ rest.map Process.ProcessID := (List.nodup_cons.mp hnodup).1
    simp only [SJFloop, SJFbody, if_pos hguard]
    apply ih
    · simp [hlen]
    · exact fun q hq => hbound q (List.mem_cons_of_mem p hq)
    · exact (List.nodup_cons.mp hnodup).2
    · intro i hi
      by_cases hij : i = (p.ProcessID - 1).toNat
      · subst hij
        refine Or.inr ⟨fun hmem => ?_, _, List.getElem?_set_self hjlt, ?_⟩
        · have heq : (((p.ProcessID - 1).toNat : Int) + 1) = p.ProcessID := by omega
          rw [heq] at hmem
          exact hnotin hmem
        · show p.ProcessID = ((p.ProcessID - 1).toNat : Int) + 1
          omega
      · have hid : ((i : Int) + 1) ≠ p.ProcessID := by omega
        rcases hinv i hi with ⟨hmem, hnone⟩ | ⟨hnmem, r, hr, hidr⟩
        · refine Or.inl ⟨?_, by rw [List.getElem?_set_ne (Ne.symm hij)]; exact hnone⟩
          simp only [List.map_cons, List.mem_cons] at hmem
          exact hmem.resolve_left hid
        · refine Or.inr ⟨?_, r, by rw [List.getElem?_set_ne (Ne.symm hij)]; exact hr, hidr⟩
          intro hmem
          exact hnmem (List.mem_cons_of_mem _ hmem)

/-- C7 (amended): when the input ids are a dense permutation of `1..N`
(`N` the input length), `SJFSchedule` succeeds, every row placement at
index `ProcessID - 1` is in bounds, and the output rows are ordered by
process id (slot `i` holds the row with id `i+1`).  When some id lies
outside `1..N`, the component fails with the index-out-of-range panic.
(In-range duplicate ids do *not* fail — see the counterexample.) -/
theorem C7_sjf_indexing :
    ∀ ps : List Process,
      (List.Perm (ps.map Process.ProcessID) (denseIds ps.length) →
        ∃ s', SJFSchedule ps = some s' ∧ s'.rows.length = ps.length ∧
          ∀ i : Nat, i < ps.length →
            ∃ r : Row, s'.rows[i]? = some (some r) ∧ r.id = (i : Int) + 1) ∧
      ((∃ p ∈ ps, p.ProcessID < 1 ∨ (ps.length : Int) < p.ProcessID) →
        SJFSchedule ps = none) := by
  intro ps
  have hsp : List.Perm ((goSort ltBurst ps).map Process.ProcessID) (ps.map Process.ProcessID) :=
    (goSort_perm ltBurst ps).map _
  constructor
  · intro hperm
    have hperm' := hsp.trans hperm
    have hrange : (denseIds ps.length).Nodup :=
      (List.nodup_range ps.length).map (fun a b h => by simpa using h)
    obtain ⟨s', hs', hlen, hrows⟩ :=
      SJFloop_perm ps.length (goSort ltBurst ps) ⟨0, 0, 0, 0, List.replicate ps.length none, []⟩
        (by simp)
        (by
          intro q hq
          have hmm : q.ProcessID ∈ denseIds ps.length :=
            hperm'.mem_iff.mp (List.mem_map_of_mem Process.ProcessID hq)
          obtain ⟨i, hi, hqi⟩ := List.mem_map.mp hmm
          have hi' := List.mem_range.mp hi
          omega)
        (hperm'.nodup_iff.mpr hrange)
        (by
          intro i hi
          refine Or.inl ⟨?_, by simp [hi]⟩
          exact hperm'.mem_iff.mpr (List.mem_map.mpr ⟨i, List.mem_range.mpr hi, rfl⟩))
    exact ⟨s', hs', hlen, hrows⟩
  · intro hbad
    obtain ⟨p, hp, hcond⟩ := hbad
    show SJFloop (goSort ltBurst ps) ⟨0, 0, 0, 0, List.replicate ps.length none, []⟩ = none
    exact SJFloop_bad ps.length (goSort ltBurst ps)
      ⟨0, 0, 0, 0, List.replicate ps.length none, []⟩ (by simp)
      ⟨p, ((goSort_perm ltBurst ps).mem_iff).mpr hp, hcond⟩

/-- Witness for C7: the permutation part applied to ids `[2,1]` (a dense
permutation of `1..2`) and the failure part applied to the single process
with id 5. -/
theorem C7_sjf_indexing_witness :
    (∃ s', SJFSchedule [⟨2, 0, 3, 0⟩, ⟨1, 0, 5, 0⟩] = some s' ∧ s'.rows.length = 2 ∧
      ∀ i : Nat, i < 2 → ∃ r : Row, s'.rows[i]? = some (some r) ∧ r.id = (i : Int) + 1) ∧
    SJFSchedule [⟨5, 0, 3, 0⟩] = none :=
  ⟨(C7_sjf_indexing [⟨2, 0, 3, 0⟩, ⟨1, 0, 5, 0⟩]).1 (by decide),
   (C7_sjf_indexing [⟨5, 0, 3, 0⟩]).2 ⟨⟨5, 0, 3, 0⟩, by decide, by decide⟩⟩

/-! ## Round-Robin: structural lemmas about the admission pass -/

lemma lookupWait_cons_self (m : List (Int × Int)) (pid w : Int) :
    lookupWait ((pid, w) :: m) pid = w := by
  simp [lookupWait]

lemma removeShift_length {backing : List Process} {len i : Nat}
    (hi : i < len) (hlen : len ≤ backing.length) :
    (removeShift backing len i).length = backing.length := by
  simp only [removeShift, List.length_append, List.length_take, List.length_drop]
  omega

lemma take_middle {backing : List Process} {len i : Nat}
    (hi : i < len) (hlen : len ≤ backing.length) :
    backing.take len =
      backing.take i ++ backing.getD i default :: (backing.drop (i + 1)).take (len - 1 - i) := by
  have hil : i < backing.length := by omega
  have hget : backing.getD i default = backing[i] := by
    rw [List.getD_eq_getElem?_getD, List.getElem?_eq_getElem hil]
    rfl
  have h1 : len = i + (len - i) := by omega
  rw [h1, List.take_add]
  have h2 : backing.drop i = backing[i] :: backing.drop (i + 1) :=
    List.drop_eq_getElem_cons hil
  rw [h2]
  have h3 : len - i = (len - 1 - i) + 1 := by omega
  rw [h3, List.take_succ_cons, hget]
  have h4 : i + (len - 1 - i + 1) - 1 - i = len - 1 - i := by omega
  rw [h4]

lemma removeShift_take {backing : List Process} {len i : Nat}
    (hi : i < len) (hlen : len ≤ backing.length) :
    (removeShift backing len i).take (len - 1) =
      backing.take i ++ (backing.drop (i + 1)).take (len - 1 - i) := by
  have hA : (backing.take i).length = i := by
    simp only [List.length_take]; omega
  have hB : ((backing.drop (i + 1)).take (len - 1 - i)).length = len - 1 - i := by
    simp only [List.length_take, List.length_drop]; omega
  simp only [removeShift, List.append_assoc]
  rw [List.take_append_eq_append_take, List.take_take]
  have h1 : min (len - 1) i = i := by omega
  rw [h1, hA]
  rw [List.take_append_eq_append_take, List.take_take, hB]
  have h2 : min (len - 1 - i) (len - 1 - i) = len - 1 - i := by omega
  rw [h2]
  have h3 : len - 1 - i - (len - 1 - i) = 0 := by omega
  rw [h3, List.take_zero, List.append_nil]

lemma perm_insert_middle (A B adm : List Process) (p : Process) :
    List.Perm ((A ++ B) ++ (adm ++ [p])) ((A ++ p :: B) ++ adm) := by
  rw [← Multiset.coe_eq_coe]
  simp only [← Multiset.coe_add, ← Multiset.cons_coe, Multiset.coe_nil,
    ← Multiset.singleton_add]
  abel

lemma admissionLoop_spec (t : Int) :
    ∀ (k i : Nat) (backing : List Process) (len : Nat) (adm b' : List Process)
      (l' : Nat) (adm' : List Process),
      len ≤ backing.length →
      admissionLoop t k i backing len adm = some (b', l', adm') →
      List.Perm (b'.take l' ++ adm') (backing.take len ++ adm) ∧
      b'.length = backing.length ∧ l' ≤ len ∧
      (∀ p ∈ adm', p ∈ adm ∨ p.ArrivalTime ≤ t) := by
  intro k
  induction k with
  | zero =>
    intro i backing len adm b' l' adm' hlen h
    simp only [admissionLoop, Option.some.injEq, Prod.mk.injEq] at h
    obtain ⟨rfl, rfl, rfl⟩ := h
    exact ⟨.refl _, rfl, le_refl _, fun p hp => Or.inl hp⟩
  | succ k ih =>
    intro i backing len adm b' l' adm' hlen h
    simp only [admissionLoop] at h
    by_cases he : (backing.getD i default).ArrivalTime ≤ t
    · rw [if_pos he] at h
      by_cases hov : len < i + 1
      · rw [if_pos hov] at h; cases h
      · rw [if_neg hov] at h
        have hi : i < len := by omega
        have hlen' : len - 1 ≤ (removeShift backing len i).length := by
          rw [removeShift_length hi hlen]; omega
        obtain ⟨hperm, hblen, hl', hadm⟩ :=
          ih (i + 1) (removeShift backing len i) (len - 1)
            (adm ++ [backing.getD i default]) b' l' adm' hlen' h
        refine ⟨?_, by rw [hblen, removeShift_length hi hlen], by omega, ?_⟩
        · refine hperm.trans ?_
          rw [removeShift_take hi hlen, take_middle hi hlen]
          exact perm_insert_middle _ _ _ _
        · intro p hp
          rcases hadm p hp with hmem | he2
          · rcases List.mem_append.mp hmem with h1 | h1
            · exact Or.inl h1
            · simp only [List.mem_singleton] at h1
              subst h1
              exact Or.inr he
          · exact Or.inr he2
    · rw [if_neg he] at h
      exact ih (i + 1) backing len adm b' l' adm' hlen h

lemma admissionLoop_adm_grows (t : Int) :
    ∀ (k i : Nat) (backing : List Process) (len : Nat) (adm b' : List Process)
      (l' : Nat) (adm' : List Process),
      admissionLoop t k i backing len adm = some (b', l', adm') →
      ∃ ext, adm' = adm ++ ext := by
  intro k
  induction k with
  | zero =>
    intro i backing len adm b' l' adm' h
    simp only [admissionLoop, Option.some.injEq, Prod.mk.injEq] at h
    obtain ⟨-, -, rfl⟩ := h
    exact ⟨[], by simp⟩
  | succ k ih =>
    intro i backing len adm b' l' adm' h
    simp only [admissionLoop] at h
    by_cases he : (backing.getD i default).ArrivalTime ≤ t
    · rw [if_pos he] at h
      by_cases hov : len < i + 1
      · rw [if_pos hov] at h; cases h
      · rw [if_neg hov] at h
        obtain ⟨ext, hext⟩ := ih _ _ _ _ _ _ _ h
        exact ⟨[backing.getD i default] ++ ext, by simp [hext]⟩
    · rw [if_neg he] at h
      exact ih _ _ _ _ _ _ _ h

lemma admissionLoop_no_admit (t : Int) :
    ∀ (k i : Nat) (backing : List Process) (len : Nat) (adm b' : List Process) (l' : Nat),
      admissionLoop t k i backing len adm = some (b', l', adm) →
      b' = backing ∧ l' = len ∧
      ∀ j : Nat, i ≤ j → j < i + k → ¬ (backing.getD j default).ArrivalTime ≤ t := by
  intro k
  induction k with
  | zero =>
    intro i backing len adm b' l' h
    simp only [admissionLoop, Option.some.injEq, Prod.mk.injEq] at h
    exact ⟨h.1.symm, h.2.1.symm, fun j h1 h2 => by omega⟩
  | succ k ih =>
    intro i backing len adm b' l' h
    simp only [admissionLoop] at h
    by_cases he : (backing.getD i default).ArrivalTime ≤ t
    · exfalso
      rw [if_pos he] at h
      by_cases hov : len < i + 1
      · rw [if_pos hov] at h; cases h
      · rw [if_neg hov] at h
        obtain ⟨ext, hext⟩ := admissionLoop_adm_grows t k (i + 1) _ _ _ _ _ _ h
        have : adm.length = adm.length + 1 + ext.length := by
          conv_lhs => rw [hext]
          simp
          omega
        omega
    · rw [if_neg he] at h
      obtain ⟨h1, h2, h3⟩ := ih (i + 1) backing len adm b' l' h
      refine ⟨h1, h2, fun j hj1 hj2 => ?_⟩
      by_cases hji : j = i
      · subst hji; exact he
      · exact h3 j (by omega) (by omega)

/-! ## Round-Robin: outer-loop lemmas -/

lemma rrStep_halt {s : RRState} (h : rrStep s = .halt) : s.len = 0 ∧ s.queue = [] := by
  by_cases hc : s.len = 0 ∧ s.queue = []
  · exact hc
  · exfalso
    simp only [rrStep, if_neg hc] at h
    split at h
    · cases h
    · split at h <;> cases h

lemma rrLoop_preserves (Inv : RRState → Prop)
    (hstep : ∀ s s2 : RRState, rrStep s = .next s2 → Inv s → Inv s2) :
    ∀ (fuel : Nat) (s s' : RRState), rrLoop fuel s = .finished s' → Inv s → Inv s' := by
  intro fuel
  induction fuel with
  | zero => intro s s' h; cases h
  | succ n ih =>
    intro s s' h hs
    simp only [rrLoop] at h
    cases hc : rrStep s with
    | halt => rw [hc] at h; cases h; exact hs
    | panic => rw [hc] at h; cases h
    | next s2 => rw [hc] at h; exact ih s2 s' h (hstep s s2 hc hs)

lemma rrLoop_finished_empty :
    ∀ (fuel : Nat) (s s' : RRState), rrLoop fuel s = .finished s' →
      s'.len = 0 ∧ s'.queue = [] := by
  intro fuel
  induction fuel with
  | zero => intro s s' h; cases h
  | succ n ih =>
    intro s s' h
    simp only [rrLoop] at h
    cases hc : rrStep s with
    | halt => rw [hc] at h; cases h; exact rrStep_halt hc
    | panic => rw [hc] at h; cases h
    | next s2 => rw [hc] at h; exact ih s2 s' h

lemma rrStep_next_spec {s s2 : RRState} (hlen : s.len ≤ s.backing.length)
    (h : rrStep s = .next s2) :
    ∃ (b' : List Process) (l' : Nat) (adm : List Process),
      b'.length = s.backing.length ∧ l' ≤ s.len ∧
      List.Perm (b'.take l' ++ adm) (s.backing.take s.len) ∧
      (∀ p ∈ adm, p.ArrivalTime ≤ s.t) ∧
      ((s.queue = [] ∧ adm = [] ∧ b' = s.backing ∧ l' = s.len ∧
          (∀ j : Nat, j < s.len → ¬ (s.backing.getD j default).ArrivalTime ≤ s.t) ∧
          s2 = { s with backing := b', len := l', t := s.t + 1 }) ∨
        (∃ cur rest, s.queue ++ adm = cur :: rest ∧
          s2 = rrDispatch { s with backing := b', len := l' } cur rest)) := by
  by_cases hc : s.len = 0 ∧ s.queue = []
  · simp only [rrStep, if_pos hc] at h
    cases h
  simp only [rrStep, if_neg hc] at h
  split at h
  · cases h
  next b' l' adm heq =>
    have heq' : admissionLoop s.t s.len 0 s.backing s.len [] = some (b', l', adm) := heq
    obtain ⟨hperm, hblen, hl', hadm⟩ :=
      admissionLoop_spec s.t s.len 0 s.backing s.len [] b' l' adm hlen heq'
    refine ⟨b', l', adm, hblen, hl', by simpa using hperm, fun p hp => ?_, ?_⟩
    · rcases hadm p hp with h1 | h1
      · exact absurd h1 (List.not_mem_nil p)
      · exact h1
    · split at h
      next hq =>
        cases h
        have hq2 : s.queue = [] ∧ adm = [] := by
          constructor
          · exact (List.append_eq_nil.mp hq).1
          · exact (List.append_eq_nil.mp hq).2
        obtain ⟨hq1, hadm0⟩ := hq2
        subst hadm0
        obtain ⟨hb, hl, hno⟩ := admissionLoop_no_admit s.t s.len 0 s.backing s.len [] b' l' heq'
        exact Or.inl ⟨hq1, rfl, hb, hl, fun j hj => hno j (by omega) (by omega), rfl⟩
      next cur rest hq =>
        cases h
        exact Or.inr ⟨cur, rest, hq, rfl⟩

/-- C6 (amended): an admission pass that completes without panicking moves
only eligible processes (arrival ≤ currentTime) into the queue, and the
admitted processes together with the surviving live prefix are exactly the
processes the pass started with — no duplication, no loss.  (It does *not*
admit every eligible process within the pass, and it panics when it reads
an eligible stale duplicate: see the counterexample and C1/C9.) -/
theorem C6_admission_pass :
    ∀ (t : Int) (backing : List Process) (len : Nat) (b' : List Process) (l' : Nat)
      (adm : List Process),
      len ≤ backing.length →
      admissionPass t backing len = some (b', l', adm) →
      (∀ p ∈ adm, p.ArrivalTime ≤ t) ∧
      List.Perm (b'.take l' ++ adm) (backing.take len) := by
  intro t backing len b' l' adm hlen h
  have h' : admissionLoop t len 0 backing len [] = some (b', l', adm) := h
  obtain ⟨hperm, -, -, hadm⟩ := admissionLoop_spec t len 0 backing len [] b' l' adm hlen h'
  refine ⟨fun p hp => ?_, by simpa using hperm⟩
  rcases hadm p hp with h1 | h1
  · exact absurd h1 (List.not_mem_nil p)
  · exact h1

/-- Witness for C6: the theorem applied to the concrete pass of the
counterexample (current time 4, three remaining processes). -/
theorem C6_admission_pass_witness :
    (∀ p ∈ [(⟨2, 1, 3, 0⟩ : Process)], p.ArrivalTime ≤ 4) ∧
    List.Perm
      (([⟨3, 2, 3, 0⟩, ⟨4, 99, 3, 0⟩, ⟨4, 99, 3, 0⟩] : List Process).take 2 ++ [⟨2, 1, 3, 0⟩])
      (([⟨2, 1, 3, 0⟩, ⟨3, 2, 3, 0⟩, ⟨4, 99, 3, 0⟩] : List Process).take 3) :=
  C6_admission_pass 4 [⟨2, 1, 3, 0⟩, ⟨3, 2, 3, 0⟩, ⟨4, 99, 3, 0⟩] 3
    [⟨3, 2, 3, 0⟩, ⟨4, 99, 3, 0⟩, ⟨4, 99, 3, 0⟩] 2 [⟨2, 1, 3, 0⟩]
    (by decide) (by decide)

/-! ## Round-Robin: burst-conservation invariant (C5) -/

lemma pidBurst_nil (pid : Int) : pidBurst [] pid = 0 := rfl

lemma pidBurst_perm {l l' : List Process} (h : List.Perm l l') (pid : Int) :
    pidBurst l pid = pidBurst l' pid :=
  List.Perm.sum_eq ((h.filter _).map _)

lemma pidBurst_append (l₁ l₂ : List Process) (pid : Int) :
    pidBurst (l₁ ++ l₂) pid = pidBurst l₁ pid + pidBurst l₂ pid := by
  simp [pidBurst, List.filter_append]

lemma pidBurst_cons (p : Process) (l : List Process) (pid : Int) :
    pidBurst (p :: l) pid =
      (if p.ProcessID == pid then p.BurstDuration else 0) + pidBurst l pid := by
  simp only [pidBurst, List.filter_cons]
  split
  · simp
  · simp

lemma sumDur_append (g₁ g₂ : List TimeSlice) (pid : Int) :
    sumDur (g₁ ++ g₂) pid = sumDur g₁ pid + sumDur g₂ pid := by
  simp [sumDur, List.filter_append]

lemma sumDur_singleton (ts : TimeSlice) (pid : Int) :
    sumDur [ts] pid = if ts.PID == pid then ts.Stop - ts.Start else 0 := by
  simp only [sumDur, List.filter_cons, List.filter_nil]
  split
  · simp
  · simp

/-- The conserved quantity of the Round-Robin loop: for every process id,
remaining live burst plus emitted Gantt time is constant, the live length
stays within the backing array, and every emitted interval is at most one
quantum long. -/
def rrInvC5 (q0 : Int → Int) (s : RRState) : Prop :=
  s.len ≤ s.backing.length ∧
  (∀ pid, pidBurst (liveList s) pid + sumDur s.gantt pid = q0 pid) ∧
  (∀ ts ∈ s.gantt, ts.Stop - ts.Start ≤ quantum)

lemma rrDispatch_invC5 (q0 : Int → Int) (s1 : RRState) (cur : Process) (rest : List Process)
    (hlen1 : s1.len ≤ s1.backing.length)
    (hqty1 : ∀ pid, pidBurst (s1.backing.take s1.len ++ (cur :: rest)) pid +
        sumDur s1.gantt pid = q0 pid)
    (hgantt1 : ∀ ts ∈ s1.gantt, ts.Stop - ts.Start ≤ quantum) :
    rrInvC5 q0 (rrDispatch s1 cur rest) := by
  simp only [rrDispatch]
  set E := if cur.BurstDuration < quantum then cur.BurstDuration else quantum with hEdef
  have hE_le : E ≤ quantum := by
    rw [hEdef]
    split
    · omega
    · omega
  have hE_complete : cur.BurstDuration - E ≤ 0 → E = cur.BurstDuration := by
    intro hle
    rw [hEdef] at hle ⊢
    by_cases hc : cur.BurstDuration < quantum
    · rw [if_pos hc]
    · rw [if_neg hc] at hle ⊢
      omega
  split
  next hpos =>
    refine ⟨hlen1, fun pid => ?_, ?_⟩
    · have hq1 := hqty1 pid
      simp only [liveList]
      show pidBurst (s1.backing.take s1.len ++
          (rest ++ [{ cur with ArrivalTime := s1.t + E, BurstDuration := cur.BurstDuration - E }]))
          pid + sumDur (s1.gantt ++ [⟨cur.ProcessID, s1.t + E - E, s1.t + E⟩]) pid = q0 pid
      simp only [pidBurst_append, pidBurst_cons, pidBurst_nil, sumDur_append,
        sumDur_singleton] at hq1 ⊢
      by_cases hpid : cur.ProcessID = pid
      · simp only [hpid, beq_self_eq_true, if_true] at hq1 ⊢
        omega
      · have hbf : (cur.ProcessID == pid) = false := by simp [hpid]
        simp only [hbf, Bool.false_eq_true, if_false] at hq1 ⊢
        omega
    · intro ts hts
      show ts.Stop - ts.Start ≤ quantum
      have hts' : ts ∈ s1.gantt ++ [(⟨cur.ProcessID, s1.t + E - E, s1.t + E⟩ : TimeSlice)] := hts
      rcases List.mem_append.mp hts' with h1 | h1
      · exact hgantt1 ts h1
      · simp only [List.mem_singleton] at h1
        subst h1
        show s1.t + E - (s1.t + E - E) ≤ quantum
        omega
  next hpos =>
    have hEB : E = cur.BurstDuration := hE_complete (by omega)
    refine ⟨hlen1, fun pid => ?_, ?_⟩
    · have hq1 := hqty1 pid
      simp only [liveList]
      show pidBurst (s1.backing.take s1.len ++ rest) pid +
          sumDur (s1.gantt ++ [⟨cur.ProcessID, s1.t + E - E, s1.t + E⟩]) pid = q0 pid
      simp only [pidBurst_append, pidBurst_cons, pidBurst_nil, sumDur_append,
        sumDur_singleton] at hq1 ⊢
      by_cases hpid : cur.ProcessID = pid
      · simp only [hpid, beq_self_eq_true, if_true] at hq1 ⊢
        omega
      · have hbf : (cur.ProcessID == pid) = false := by simp [hpid]
        simp only [hbf, Bool.false_eq_true, if_false] at hq1 ⊢
        omega
    · intro ts hts
      show ts.Stop - ts.Start ≤ quantum
      have hts' : ts ∈ s1.gantt ++ [(⟨cur.ProcessID, s1.t + E - E, s1.t + E⟩ : TimeSlice)] := hts
      rcases List.mem_append.mp hts' with h1 | h1
      · exact hgantt1 ts h1
      · simp only [List.mem_singleton] at h1
        subst h1
        show s1.t + E - (s1.t + E - E) ≤ quantum
        omega

lemma rrStep_invC5 (q0 : Int → Int) :
    ∀ s s2 : RRState, rrStep s = .next s2 → rrInvC5 q0 s → rrInvC5 q0 s2 := by
  intro s s2 h hinv
  obtain ⟨hlen, hqty, hgantt⟩ := hinv
  obtain ⟨b', l', adm, hblen, hl', hperm, hadm, hcase⟩ := rrStep_next_spec hlen h
  rcases hcase with ⟨hq1, hadm0, hb, hl, hno, hs2⟩ | ⟨cur, rest, hq, hs2⟩
  · subst hs2
    subst hb
    subst hl
    refine ⟨by simpa using hlen, fun pid => ?_, by simpa using hgantt⟩
    simpa [liveList] using hqty pid
  · have hliveM : (↑(liveList s) : Multiset Process) = ↑(b'.take l' ++ (cur :: rest)) := by
      have hp : (↑(b'.take l' ++ adm) : Multiset Process) = ↑(s.backing.take s.len) :=
        Multiset.coe_eq_coe.mpr hperm
      rw [← hq]
      simp only [liveList, ← Multiset.coe_add] at hp ⊢
      rw [← hp]
      abel
    have hliveP : List.Perm (liveList s) (b'.take l' ++ (cur :: rest)) :=
      Multiset.coe_eq_coe.mp hliveM
    subst hs2
    apply rrDispatch_invC5
    · show l' ≤ b'.length
      omega
    · intro pid
      have hthis := hqty pid
      rw [pidBurst_perm hliveP pid] at hthis
      exact hthis
    · exact hgantt

lemma sumDur_nil (pid : Int) : sumDur [] pid = 0 := rfl

lemma pidBurst_eq_zero_of_not_mem {l : List Process} {pid : Int}
    (h : pid ∉ l.map Process.ProcessID) : pidBurst l pid = 0 := by
  induction l with
  | nil => rfl
  | cons q rest ih =>
    simp only [List.map_cons, List.mem_cons, not_or] at h
    rw [pidBurst_cons]
    have hbf : (q.ProcessID == pid) = false := by
      simp only [beq_eq_false_iff_ne, Ne]
      intro he
      exact h.1 he.symm
    rw [hbf, ih h.2]
    simp

lemma pidBurst_self_of_nodup :
    ∀ (ps : List Process), idsNodup ps → ∀ p ∈ ps, pidBurst ps p.ProcessID = p.BurstDuration := by
  intro ps
  induction ps with
  | nil => intro _ p hp; cases hp
  | cons q rest ih =>
    intro hnd p hp
    simp only [idsNodup, List.map_cons, List.nodup_cons] at hnd
    rcases List.mem_cons.mp hp with heq | hp'
    · subst heq
      rw [pidBurst_cons]
      simp only [beq_self_eq_true, if_true]
      rw [pidBurst_eq_zero_of_not_mem hnd.1]
      simp
    · rw [pidBurst_cons]
      have hne : (q.ProcessID == p.ProcessID) = false := by
        simp only [beq_eq_false_iff_ne, Ne]
        intro he
        exact hnd.1 (he ▸ List.mem_map_of_mem Process.ProcessID hp')
      rw [hne, ih hnd.2 p hp']
      simp

/-- C5: in every run of `RRSchedule` that completes normally, the total
duration of the Gantt intervals attributed to each process id equals the
total original burst of the input processes with that id (hence, for
pairwise-distinct ids, each process's own burst), and no single interval
is longer than the quantum. -/
theorem C5_rr_burst_conservation :
    ∀ (ps : List Process) (fuel : Nat) (s' : RRState),
      RRSchedule fuel ps = .finished s' →
      (∀ pid : Int, sumDur s'.gantt pid = pidBurst ps pid) ∧
      (idsNodup ps → ∀ p ∈ ps, sumDur s'.gantt p.ProcessID = p.BurstDuration) ∧
      (∀ ts ∈ s'.gantt, ts.Stop - ts.Start ≤ quantum) := by
  intro ps fuel s' h
  have h' : rrLoop fuel
      ⟨goSort ltArrival ps, (goSort ltArrival ps).length, [], 0, [], 0, 0, 0, [], []⟩ =
      .finished s' := h
  have hinit : rrInvC5 (fun pid => pidBurst ps pid)
      ⟨goSort ltArrival ps, (goSort ltArrival ps).length, [], 0, [], 0, 0, 0, [], []⟩ := by
    refine ⟨le_refl _, fun pid => ?_, fun ts hts => absurd hts (List.not_mem_nil ts)⟩
    show pidBurst ((goSort ltArrival ps).take (goSort ltArrival ps).length ++ []) pid +
        sumDur [] pid = pidBurst ps pid
    rw [List.take_length, List.append_nil, sumDur_nil,
      pidBurst_perm (goSort_perm ltArrival ps) pid]
    simp
  have hfin := rrLoop_preserves (rrInvC5 (fun pid => pidBurst ps pid)) (rrStep_invC5 _)
    fuel _ s' h' hinit
  obtain ⟨hlen', hqty', hg'⟩ := hfin
  obtain ⟨he1, he2⟩ := rrLoop_finished_empty fuel _ s' h'
  have hlive0 : liveList s' = [] := by simp [liveList, he1, he2]
  have hmain : ∀ pid : Int, sumDur s'.gantt pid = pidBurst ps pid := by
    intro pid
    have hq := hqty' pid
    rw [hlive0, pidBurst_nil] at hq
    simpa using hq
  refine ⟨hmain, fun hnd p hp => ?_, hg'⟩
  rw [hmain p.ProcessID, pidBurst_self_of_nodup ps hnd p hp]

/-- Witness for C5: the theorem applied to the single process
`{id:1,burst:5,arrival:0}` with fuel 10; the run finishes with Gantt
intervals `[0,4)` and `[4,5)` for process 1, summing to burst 5. -/
theorem C5_rr_burst_conservation_witness :
    sumDur [⟨1, 0, 4⟩, ⟨1, 4, 5⟩] 1 = 5 ∧
    (∀ ts ∈ ([⟨1, 0, 4⟩, ⟨1, 4, 5⟩] : List TimeSlice), ts.Stop - ts.Start ≤ quantum) := by
  have h := C5_rr_burst_conservation [⟨1, 0, 5, 0⟩] 10
    ⟨[⟨1, 0, 5, 0⟩], 0, [], 5, [(1, 0), (1, 0)], 0, 1, 5,
      [⟨1, 0, 1, 4, 0, 1, 5⟩], [⟨1, 0, 4⟩, ⟨1, 4, 5⟩]⟩ (by decide)
  exact ⟨h.2.1 (by decide) ⟨1, 0, 5, 0⟩ (by decide), h.2.2⟩

/-! ## Round-Robin: result rows show only the last-dispatch wait (C10) -/

lemma lookupWait_cons_ne (m : List (Int × Int)) (k v pid : Int) (h : k ≠ pid) :
    lookupWait ((k, v) :: m) pid = lookupWait m pid := by
  simp only [lookupWait]
  have hbf : (k == pid) = false := by simp [h]
  simp only [hbf, Bool.false_eq_true, if_false]

/-- The bookkeeping invariant behind C10: live process ids stay pairwise
distinct, a completed row's id never reappears among live processes, and
each completed row's printed wait equals the (current, last-written)
`waitingTime` map entry for its id. -/
def rrInvC10 (s : RRState) : Prop :=
  s.len ≤ s.backing.length ∧
  ((liveList s).map Process.ProcessID).Nodup ∧
  (∀ r ∈ s.rows, r.id ∉ (liveList s).map Process.ProcessID) ∧
  (∀ r ∈ s.rows, lookupWait s.waitMap r.id = r.wait)

lemma rrDispatch_invC10 (s1 : RRState) (cur : Process) (rest : List Process)
    (hlen1 : s1.len ≤ s1.backing.length)
    (hnd : ((s1.backing.take s1.len ++ (cur :: rest)).map Process.ProcessID).Nodup)
    (hrows_ids : ∀ r ∈ s1.rows,
      r.id ∉ (s1.backing.take s1.len ++ (cur :: rest)).map Process.ProcessID)
    (hrows_wait : ∀ r ∈ s1.rows, lookupWait s1.waitMap r.id = r.wait) :
    rrInvC10 (rrDispatch s1 cur rest) := by
  have hmid : List.Perm ((s1.backing.take s1.len ++ (cur :: rest)).map Process.ProcessID)
      (cur.ProcessID :: (s1.backing.take s1.len ++ rest).map Process.ProcessID) := by
    have hp : List.Perm (s1.backing.take s1.len ++ (cur :: rest))
        (cur :: (s1.backing.take s1.len ++ rest)) := List.perm_middle
    have hm := hp.map Process.ProcessID
    simp only [List.map_cons] at hm
    exact hm
  have hnd2 : (cur.ProcessID :: (s1.backing.take s1.len ++ rest).map Process.ProcessID).Nodup :=
    (hmid.nodup_iff).mp hnd
  have hcur_notin : cur.ProcessID ∉ (s1.backing.take s1.len ++ rest).map Process.ProcessID :=
    (List.nodup_cons.mp hnd2).1
  have hnd3 : ((s1.backing.take s1.len ++ rest).map Process.ProcessID).Nodup :=
    (List.nodup_cons.mp hnd2).2
  have hrid_ne : ∀ r ∈ s1.rows, r.id ≠ cur.ProcessID := by
    intro r hr he
    apply hrows_ids r hr
    rw [he]
    exact (hmid.mem_iff).mpr (List.mem_cons_self _ _)
  simp only [rrDispatch]
  set E := if cur.BurstDuration < quantum then cur.BurstDuration else quantum with hEdef
  set cur2 : Process :=
    { cur with ArrivalTime := s1.t + E, BurstDuration := cur.BurstDuration - E } with hcur2
  have hcur2id : cur2.ProcessID = cur.ProcessID := rfl
  have hp2 : List.Perm (s1.backing.take s1.len ++ (rest ++ [cur2]))
      (cur2 :: (s1.backing.take s1.len ++ rest)) :=
    (List.Perm.append_left _ (List.perm_append_singleton cur2 rest)).trans List.perm_middle
  split
  next hpos =>
    refine ⟨hlen1, ?_, ?_, ?_⟩
    · show ((s1.backing.take s1.len ++ (rest ++ [cur2])).map Process.ProcessID).Nodup
      rw [List.Perm.nodup_iff (hp2.map Process.ProcessID)]
      simp only [List.map_cons, hcur2id]
      exact hnd2
    · intro r hr hmem
      have hr' : r ∈ s1.rows := hr
      have hmem' : r.id ∈ (s1.backing.take s1.len ++ (rest ++ [cur2])).map Process.ProcessID :=
        hmem
      have hmem2 := ((hp2.map Process.ProcessID).mem_iff).mp hmem'
      simp only [List.map_cons, List.mem_cons, hcur2id] at hmem2
      rcases hmem2 with h1 | h1
      · exact hrid_ne r hr' h1
      · exact hrows_ids r hr' ((hmid.mem_iff).mpr (List.mem_cons_of_mem _ h1))
    · intro r hr
      have hr' : r ∈ s1.rows := hr
      show lookupWait ((cur.ProcessID, s1.t - cur.ArrivalTime) :: s1.waitMap) r.id = r.wait
      rw [lookupWait_cons_ne _ _ _ _ (fun he => hrid_ne r hr' he.symm)]
      exact hrows_wait r hr'
  next hpos =>
    refine ⟨hlen1, ?_, ?_, ?_⟩
    · show ((s1.backing.take s1.len ++ rest).map Process.ProcessID).Nodup
      exact hnd3
    · intro r hr
      have hr' : r ∈ s1.rows ++
          [(⟨cur.ProcessID, cur.Priority, cur.BurstDuration - E + E,
            cur.ArrivalTime - lookupWait ((cur.ProcessID, s1.t - cur.ArrivalTime) :: s1.waitMap)
              cur.ProcessID,
            lookupWait ((cur.ProcessID, s1.t - cur.ArrivalTime) :: s1.waitMap) cur.ProcessID,
            s1.t + E - cur.ArrivalTime +
              lookupWait ((cur.ProcessID, s1.t - cur.ArrivalTime) :: s1.waitMap) cur.ProcessID,
            s1.t + E⟩ : Row)] := hr
      intro hmem
      have hmem' : r.id ∈ (s1.backing.take s1.len ++ rest).map Process.ProcessID := hmem
      rcases List.mem_append.mp hr' with h1 | h1
      · exact hrows_ids r h1 ((hmid.mem_iff).mpr (List.mem_cons_of_mem _ hmem'))
      · simp only [List.mem_singleton] at h1
        subst h1
        exact hcur_notin hmem'
    · intro r hr
      have hr' : r ∈ s1.rows ++
          [(⟨cur.ProcessID, cur.Priority, cur.BurstDuration - E + E,
            cur.ArrivalTime - lookupWait ((cur.ProcessID, s1.t - cur.ArrivalTime) :: s1.waitMap)
              cur.ProcessID,
            lookupWait ((cur.ProcessID, s1.t - cur.ArrivalTime) :: s1.waitMap) cur.ProcessID,
            s1.t + E - cur.ArrivalTime +
              lookupWait ((cur.ProcessID, s1.t - cur.ArrivalTime) :: s1.waitMap) cur.ProcessID,
            s1.t + E⟩ : Row)] := hr
      rcases List.mem_append.mp hr' with h1 | h1
      · show lookupWait ((cur.ProcessID, s1.t - cur.ArrivalTime) :: s1.waitMap) r.id = r.wait
        rw [lookupWait_cons_ne _ _ _ _ (fun he => hrid_ne r h1 he.symm)]
        exact hrows_wait r h1
      · simp only [List.mem_singleton] at h1
        subst h1
        rfl

lemma rrStep_invC10 :
    ∀ s s2 : RRState, rrStep s = .next s2 → rrInvC10 s → rrInvC10 s2 := by
  intro s s2 h hinv
  obtain ⟨hlen, hnd, hrows_ids, hrows_wait⟩ := hinv
  obtain ⟨b', l', adm, hblen, hl', hperm, hadm, hcase⟩ := rrStep_next_spec hlen h
  rcases hcase with ⟨hq1, hadm0, hb, hl, hno, hs2⟩ | ⟨cur, rest, hq, hs2⟩
  · subst hs2
    subst hb
    subst hl
    refine ⟨by simpa using hlen, by simpa [liveList] using hnd, ?_, by simpa using hrows_wait⟩
    intro r hr
    have := hrows_ids r hr
    simpa [liveList] using this
  · have hliveM : (↑(liveList s) : Multiset Process) = ↑(b'.take l' ++ (cur :: rest)) := by
      have hp : (↑(b'.take l' ++ adm) : Multiset Process) = ↑(s.backing.take s.len) :=
        Multiset.coe_eq_coe.mpr hperm
      rw [← hq]
      simp only [liveList, ← Multiset.coe_add] at hp ⊢
      rw [← hp]
      abel
    have hliveP : List.Perm (liveList s) (b'.take l' ++ (cur :: rest)) :=
      Multiset.coe_eq_coe.mp hliveM
    subst hs2
    apply rrDispatch_invC10
    · show l' ≤ b'.length
      omega
    · show ((b'.take l' ++ (cur :: rest)).map Process.ProcessID).Nodup
      exact ((hliveP.map Process.ProcessID).nodup_iff).mp hnd
    · intro r hr hmem
      apply hrows_ids r hr
      exact ((hliveP.map Process.ProcessID).mem_iff).mpr hmem
    · exact hrows_wait

/-- C10: in every normally-completed Round-Robin run with distinct input
ids, the waiting time printed in each result row equals the final
`waitingTime` map entry for its id — i.e. only the wait recorded at that
process's most recent dispatch (`currentTime - arrivalTime` with the
re-seeded arrival), the map entry being overwritten on every dispatch.
Meanwhile `totalWait` accumulates the per-dispatch waits over *all*
dispatches, so with the same divisor (the completed count) the printed
average waiting time is not in general the mean of the rows' waiting-time
column: on `[{id:1,burst:8,arrival:0},{id:2,burst:8,arrival:1},
{id:3,burst:1,arrival:20}]` the rows' wait column is `[0,0,0]` while
`totalWait = 7` (process 2 waited 7 before its first dispatch but 0 before
its last). -/
theorem C10_rr_wait_reporting :
    (∀ (ps : List Process) (fuel : Nat) (s' : RRState),
      RRSchedule fuel ps = .finished s' → idsNodup ps →
      ∀ r ∈ s'.rows, lookupWait s'.waitMap r.id = r.wait) ∧
    (RRSchedule 15 [⟨1, 0, 8, 0⟩, ⟨2, 1, 8, 0⟩, ⟨3, 20, 1, 0⟩]).state.rows.map Row.wait =
      [0, 0, 0] ∧
    (RRSchedule 15 [⟨1, 0, 8, 0⟩, ⟨2, 1, 8, 0⟩, ⟨3, 20, 1, 0⟩]).state.totalWait = 7 ∧
    (RRSchedule 15 [⟨1, 0, 8, 0⟩, ⟨2, 1, 8, 0⟩, ⟨3, 20, 1, 0⟩]).state.totalWait ≠
      ((RRSchedule 15 [⟨1, 0, 8, 0⟩, ⟨2, 1, 8, 0⟩, ⟨3, 20, 1, 0⟩]).state.rows.map Row.wait).sum := by
  refine ⟨?_, by decide, by decide, by decide⟩
  intro ps fuel s' h hnd
  have h' : rrLoop fuel
      ⟨goSort ltArrival ps, (goSort ltArrival ps).length, [], 0, [], 0, 0, 0, [], []⟩ =
      .finished s' := h
  have hinit : rrInvC10
      ⟨goSort ltArrival ps, (goSort ltArrival ps).length, [], 0, [], 0, 0, 0, [], []⟩ := by
    refine ⟨le_refl _, ?_, fun r hr => absurd hr (List.not_mem_nil r),
      fun r hr => absurd hr (List.not_mem_nil r)⟩
    show (((goSort ltArrival ps).take (goSort ltArrival ps).length ++ []).map
        Process.ProcessID).Nodup
    rw [List.take_length, List.append_nil]
    exact (((goSort_perm ltArrival ps).map Process.ProcessID).nodup_iff).mpr hnd
  exact (rrLoop_preserves rrInvC10 rrStep_invC10 fuel _ s' h' hinit).2.2.2

/-- Witness for C10's general part: the single-process run
`{id:1,burst:5,arrival:0}` (fuel 10) finishes with one row whose printed
wait 0 equals the final map entry for id 1. -/
theorem C10_rr_wait_reporting_witness :
    lookupWait [(1, 0), (1, 0)] 1 = 0 :=
  C10_rr_wait_reporting.1 [⟨1, 0, 5, 0⟩] 10
    ⟨[⟨1, 0, 5, 0⟩], 0, [], 5, [(1, 0), (1, 0)], 0, 1, 5,
      [⟨1, 0, 1, 4, 0, 1, 5⟩], [⟨1, 0, 4⟩, ⟨1, 4, 5⟩]⟩
    (by decide) (by decide) ⟨1, 0, 1, 4, 0, 1, 5⟩ (by decide)

/-! ## Round-Robin: the outer loop cannot run forever (C9) -/

/-- Termination weight of one live process: positive even at zero burst, so
removing a process from the live lists always shrinks the measure. -/
def weight (p : Process) : Nat := p.BurstDuration.toNat + 1

/-- Primary termination measure: total weight of the live processes. -/
def rrMeasure (s : RRState) : Nat := ((liveList s).map weight).sum

/-- Secondary measure for the idle-stepping phase: total distance from the
clock to the remaining (not yet admitted) arrival times. -/
def rrGap (s : RRState) : Nat :=
  ((s.backing.take s.len).map (fun p => (p.ArrivalTime - s.t).toNat)).sum

lemma sum_map_pred_le :
    ∀ xs : List Nat, (xs.map (fun a => a - 1)).sum ≤ xs.sum := by
  intro xs
  induction xs with
  | nil => simp
  | cons y ys ih =>
    simp only [List.map_cons, List.sum_cons]
    omega

lemma sum_map_pred_lt :
    ∀ xs : List Nat, xs ≠ [] → (∀ a ∈ xs, 0 < a) →
      (xs.map (fun a => a - 1)).sum < xs.sum := by
  intro xs
  induction xs with
  | nil => intro h; cases h rfl
  | cons y ys _ =>
    intro _ hpos
    simp only [List.map_cons, List.sum_cons]
    have h1 := sum_map_pred_le ys
    have h2 := hpos y (List.mem_cons_self y ys)
    omega

lemma arrival_of_take :
    ∀ (l : List Process) (n : Nat) (t : Int),
      (∀ j : Nat, j < n → ¬ (l.getD j default).ArrivalTime ≤ t) →
      ∀ p ∈ l.take n, t < p.ArrivalTime := by
  intro l
  induction l with
  | nil => intro n t _ p hp; simp at hp
  | cons q rest ih =>
    intro n t hno p hp
    cases n with
    | zero => simp at hp
    | succ n2 =>
      simp only [List.take_succ_cons, List.mem_cons] at hp
      rcases hp with heq | hp2
      · subst heq
        have h0 := hno 0 (by omega)
        simp only [List.getD_cons_zero] at h0
        omega
      · refine ih n2 t (fun j hj => ?_) p hp2
        have hj1 := hno (j + 1) (by omega)
        simpa using hj1

lemma rrGap_idle_lt {s : RRState} (hne : s.len ≠ 0)
    (hlen : s.len ≤ s.backing.length)
    (hno : ∀ j : Nat, j < s.len → ¬ (s.backing.getD j default).ArrivalTime ≤ s.t) :
    rrGap { s with t := s.t + 1 } < rrGap s := by
  have harr : ∀ p ∈ s.backing.take s.len, s.t < p.ArrivalTime :=
    fun p hp => arrival_of_take s.backing s.len s.t hno p hp
  show ((s.backing.take s.len).map (fun p => (p.ArrivalTime - (s.t + 1)).toNat)).sum <
    ((s.backing.take s.len).map (fun p => (p.ArrivalTime - s.t).toNat)).sum
  have hmapeq : (s.backing.take s.len).map (fun p => (p.ArrivalTime - (s.t + 1)).toNat) =
      ((s.backing.take s.len).map (fun p => (p.ArrivalTime - s.t).toNat)).map
        (fun a => a - 1) := by
    rw [List.map_map]
    apply List.map_congr_left
    intro p hp
    have := harr p hp
    simp only [Function.comp]
    omega
  rw [hmapeq]
  apply sum_map_pred_lt
  · intro hemp
    have htk : s.backing.take s.len = [] := List.map_eq_nil_iff.mp hemp
    have hlt : (s.backing.take s.len).length = 0 := by rw [htk]; rfl
    simp only [List.length_take] at hlt
    omega
  · intro a ha
    obtain ⟨p, hp, hpa⟩ := List.mem_map.mp ha
    have := harr p hp
    omega

lemma rrDispatch_backing_len (s1 : RRState) (cur : Process) (rest : List Process) :
    (rrDispatch s1 cur rest).backing = s1.backing ∧ (rrDispatch s1 cur rest).len = s1.len := by
  simp only [rrDispatch]
  set E := if cur.BurstDuration < quantum then cur.BurstDuration else quantum
  split
  · exact ⟨rfl, rfl⟩
  · exact ⟨rfl, rfl⟩

lemma rrDispatch_measure (s1 : RRState) (cur : Process) (rest : List Process) :
    rrMeasure (rrDispatch s1 cur rest) <
      ((s1.backing.take s1.len ++ (cur :: rest)).map weight).sum := by
  have hqv : quantum = (4 : Int) := rfl
  simp only [rrDispatch, rrMeasure]
  set E := if cur.BurstDuration < quantum then cur.BurstDuration else quantum with hEdef
  set cur2 : Process :=
    { cur with ArrivalTime := s1.t + E, BurstDuration := cur.BurstDuration - E } with hcur2
  split
  next hpos =>
    have hcase : ¬ (cur.BurstDuration < quantum) := by
      intro hlt
      rw [hEdef, if_pos hlt] at hpos
      omega
    have hE4 : E = (4 : Int) := by rw [hEdef, if_neg hcase, hqv]
    show ((s1.backing.take s1.len ++ (rest ++ [cur2])).map weight).sum <
      ((s1.backing.take s1.len ++ (cur :: rest)).map weight).sum
    simp only [List.map_append, List.sum_append, List.map_cons, List.sum_cons,
      List.map_nil, List.sum_nil]
    have hw2 : weight cur2 < weight cur := by
      show (cur.BurstDuration - E).toNat + 1 < cur.BurstDuration.toNat + 1
      rw [hE4] at hpos ⊢
      omega
    omega
  next hpos =>
    show ((s1.backing.take s1.len ++ rest).map weight).sum <
      ((s1.backing.take s1.len ++ (cur :: rest)).map weight).sum
    simp only [List.map_append, List.sum_append, List.map_cons, List.sum_cons]
    have hwc : 0 < weight cur := by
      show 0 < cur.BurstDuration.toNat + 1
      omega
    omega

lemma rrLoop_no_fuelOut :
    ∀ (m : Nat) (s : RRState), s.len ≤ s.backing.length → rrMeasure s ≤ m →
      ∃ n : Nat, (rrLoop n s).isFuelOut = false := by
  intro m
  induction m using Nat.strong_induction_on with
  | _ m ihm =>
    suffices hsuff : ∀ (g : Nat) (s : RRState), s.len ≤ s.backing.length → rrMeasure s ≤ m →
        rrGap s ≤ g → ∃ n : Nat, (rrLoop n s).isFuelOut = false by
      exact fun s hlen hm => hsuff (rrGap s) s hlen hm (le_refl _)
    intro g
    induction g with
    | zero =>
      intro s hlen hm hg
      cases hstep : rrStep s with
      | halt => exact ⟨1, by simp [rrLoop, hstep, RROutcome.isFuelOut]⟩
      | panic => exact ⟨1, by simp [rrLoop, hstep, RROutcome.isFuelOut]⟩
      | next s2 =>
        have hccond : ¬ (s.len = 0 ∧ s.queue = []) := by
          intro hc
          simp [rrStep, if_pos hc] at hstep
        obtain ⟨b', l', adm, hblen, hl', hperm, hadm, hcase⟩ := rrStep_next_spec hlen hstep
        rcases hcase with ⟨hq1, hadm0, hb, hl, hno, hs2⟩ | ⟨cur, rest, hq, hs2⟩
        · exfalso
          have hne : s.len ≠ 0 := fun h0 => hccond ⟨h0, hq1⟩
          have hglt := rrGap_idle_lt hne hlen hno
          omega
        · have hliveM : (↑(liveList s) : Multiset Process) = ↑(b'.take l' ++ (cur :: rest)) := by
            have hp : (↑(b'.take l' ++ adm) : Multiset Process) = ↑(s.backing.take s.len) :=
              Multiset.coe_eq_coe.mpr hperm
            rw [← hq]
            simp only [liveList, ← Multiset.coe_add] at hp ⊢
            rw [← hp]
            abel
          have hliveP : List.Perm (liveList s) (b'.take l' ++ (cur :: rest)) :=
            Multiset.coe_eq_coe.mp hliveM
          have hlivesum : rrMeasure s = ((b'.take l' ++ (cur :: rest)).map weight).sum :=
            List.Perm.sum_eq (hliveP.map weight)
          have hm2 : rrMeasure s2 < rrMeasure s := by
            rw [hs2, hlivesum]
            exact rrDispatch_measure { s with backing := b', len := l' } cur rest
          have hlen2 : s2.len ≤ s2.backing.length := by
            rw [hs2]
            obtain ⟨hbb, hll⟩ :=
              rrDispatch_backing_len { s with backing := b', len := l' } cur rest
            rw [hbb, hll]
            show l' ≤ b'.length
            omega
          obtain ⟨n0, hn0⟩ := ihm (rrMeasure s2) (by omega) s2 hlen2 (le_refl _)
          exact ⟨n0 + 1, by simp only [rrLoop, hstep]; exact hn0⟩
    | succ g ihg =>
      intro s hlen hm hg
      cases hstep : rrStep s with
      | halt => exact ⟨1, by simp [rrLoop, hstep, RROutcome.isFuelOut]⟩
      | panic => exact ⟨1, by simp [rrLoop, hstep, RROutcome.isFuelOut]⟩
      | next s2 =>
        have hccond : ¬ (s.len = 0 ∧ s.queue = []) := by
          intro hc
          simp [rrStep, if_pos hc] at hstep
        obtain ⟨b', l', adm, hblen, hl', hperm, hadm, hcase⟩ := rrStep_next_spec hlen hstep
        rcases hcase with ⟨hq1, hadm0, hb, hl, hno, hs2⟩ | ⟨cur, rest, hq, hs2⟩
        · have hne : s.len ≠ 0 := fun h0 => hccond ⟨h0, hq1⟩
          subst hb
          subst hl
          have hglt0 := rrGap_idle_lt hne hlen hno
          have hglt : rrGap s2 < rrGap s := by
            rw [hs2]
            exact hglt0
          have hms : rrMeasure s2 = rrMeasure s := by
            rw [hs2]
            rfl
          have hlen2 : s2.len ≤ s2.backing.length := by
            rw [hs2]
            exact hlen
          obtain ⟨n0, hn0⟩ := ihg s2 hlen2 (by omega) (by omega)
          exact ⟨n0 + 1, by simp only [rrLoop, hstep]; exact hn0⟩
        · have hliveM : (↑(liveList s) : Multiset Process) = ↑(b'.take l' ++ (cur :: rest)) := by
            have hp : (↑(b'.take l' ++ adm) : Multiset Process) = ↑(s.backing.take s.len) :=
              Multiset.coe_eq_coe.mpr hperm
            rw [← hq]
            simp only [liveList, ← Multiset.coe_add] at hp ⊢
            rw [← hp]
            abel
          have hliveP : List.Perm (liveList s) (b'.take l' ++ (cur :: rest)) :=
            Multiset.coe_eq_coe.mp hliveM
          have hlivesum : rrMeasure s = ((b'.take l' ++ (cur :: rest)).map weight).sum :=
            List.Perm.sum_eq (hliveP.map weight)
          have hm2 : rrMeasure s2 < rrMeasure s := by
            rw [hs2, hlivesum]
            exact rrDispatch_measure { s with backing := b', len := l' } cur rest
          have hlen2 : s2.len ≤ s2.backing.length := by
            rw [hs2]
            obtain ⟨hbb, hll⟩ :=
              rrDispatch_backing_len { s with backing := b', len := l' } cur rest
            rw [hbb, hll]
            show l' ≤ b'.length
            omega
          obtain ⟨n0, hn0⟩ := ihm (rrMeasure s2) (by omega) s2 hlen2 (le_refl _)
          exact ⟨n0 + 1, by simp only [rrLoop, hstep]; exact hn0⟩

lemma FCFS_rows_length :
    ∀ (l : List Process) (s : FCFSState),
      ((l.foldl FCFSbody s).rows).length = s.rows.length + l.length := by
  intro l
  induction l with
  | nil => intro s; simp
  | cons p rest ih =>
    intro s
    simp only [List.foldl_cons]
    rw [ih]
    simp only [FCFSbody, List.length_append, List.length_cons, List.length_nil]
    omega

lemma Prio_rows_length :
    ∀ (l : List Process) (s : PrioState),
      ((l.foldl SJFPrioBody s).rows).length = s.rows.length + l.length := by
  intro l
  induction l with
  | nil => intro s; simp
  | cons p rest ih =>
    intro s
    simp only [List.foldl_cons]
    rw [ih]
    simp only [SJFPrioBody, List.length_append, List.length_cons, List.length_nil]
    omega

lemma SJF_gantt_length :
    ∀ (l : List Process) (s s' : SJFState), SJFloop l s = some s' →
      s'.gantt.length = s.gantt.length + l.length := by
  intro l
  induction l with
  | nil =>
    intro s s' h
    simp only [SJFloop, Option.some.injEq] at h
    subst h
    simp
  | cons p rest ih =>
    intro s s' h
    simp only [SJFloop] at h
    cases hb : SJFbody s p with
    | none => rw [hb] at h; cases h
    | some s1 =>
      rw [hb] at h
      have h1 := ih s1 s' h
      have h2 : s1.gantt.length = s.gantt.length + 1 := by
        simp only [SJFbody] at hb
        split at hb
        · cases hb
          simp
        · cases hb
      rw [h1, h2]
      simp only [List.length_cons]
      omega

/-- C9 (amended): the three non-preemptive schedulers terminate after one
iteration per input process (one result row / Gantt slice each), and
`RRSchedule`'s outer loop never runs forever: for every input, some finite
fuel reaches an outcome that is not fuel exhaustion — either the normal
exit, which happens exactly when the remaining list and the ready queue
are both empty, or the admission-pass panic (which the original claim did
not allow for: see the counterexample and C1). -/
theorem C9_termination :
    ∀ ps : List Process,
      (FCFSSchedule ps).rows.length = ps.length ∧
      (SJFPrioritySchedule ps).rows.length = ps.length ∧
      (∀ s', SJFSchedule ps = some s' → s'.gantt.length = ps.length) ∧
      (∃ n : Nat, (RRSchedule n ps).isFuelOut = false) ∧
      (∀ m : Nat, (RRSchedule m ps).emptyOnFinish = true) := by
  intro ps
  refine ⟨?_, ?_, ?_, ?_, ?_⟩
  · show ((ps.foldl FCFSbody ⟨0, 0, 0, 0, 0, [], []⟩).rows).length = ps.length
    rw [FCFS_rows_length]
    simp
  · show (((goSort ltBurstPriority ps).foldl SJFPrioBody ⟨0, 0, 0, 0, [], []⟩).rows).length =
      ps.length
    rw [Prio_rows_length]
    simp [(goSort_perm ltBurstPriority ps).length_eq]
  · intro s' h
    have h' : SJFloop (goSort ltBurst ps)
        ⟨0, 0, 0, 0, List.replicate ps.length none, []⟩ = some s' := h
    have h1 := SJF_gantt_length _ _ _ h'
    simpa [(goSort_perm ltBurst ps).length_eq] using h1
  · exact rrLoop_no_fuelOut
      (rrMeasure ⟨goSort ltArrival ps, (goSort ltArrival ps).length, [], 0, [], 0, 0, 0, [], []⟩)
      ⟨goSort ltArrival ps, (goSort ltArrival ps).length, [], 0, [], 0, 0, 0, [], []⟩
      (le_refl _) (le_refl _)
  · intro m
    cases ho : RRSchedule m ps with
    | finished s' =>
      have ho' : rrLoop m
          ⟨goSort ltArrival ps, (goSort ltArrival ps).length, [], 0, [], 0, 0, 0, [], []⟩ =
          .finished s' := ho
      obtain ⟨h1, h2⟩ := rrLoop_finished_empty m _ s' ho'
      simp [RROutcome.emptyOnFinish, h1, h2]
    | crashed s' => rfl
    | fuelOut s' => rfl

/-- Witness for C9: the theorem applied to the single process
`{id:1,burst:2,arrival:0}`, reading off that SJF produced exactly one
Gantt slice. -/
theorem C9_termination_witness :
    ((⟨2, 0, 2, 2, [some ⟨1, 0, 2, 0, 0, 2, 2⟩], [⟨1, 0, 2⟩]⟩ : SJFState)).gantt.length = 1 :=
  (C9_termination [⟨1, 0, 2, 0⟩]).2.2.1
    ⟨2, 0, 2, 2, [some ⟨1, 0, 2, 0, 0, 2, 2⟩], [⟨1, 0, 2⟩]⟩ (by decide)
